import Mathlib

/-!
Verification of the ORION data-services core against its specification.

This file gives a shallow embedding of the two core components:

* `NodeNormUtils.normalize_node_data` (src/Common/utils.py, lines 95-211):
  the identifier-normalization cache and batched-lookup protocol, and the
  cache-application ("rewrite") loop.
* `UGLoader.write_edge_data` (src/UberGraph/src/loadUG.py, lines 270-382):
  the triple-to-edge grouping and content-addressed deduplication engine.

Python dicts are embedded as association lists in which an insertion
prepends its pair and a lookup takes the first match; this realises the
observable dict semantics (insert-or-overwrite, membership, lookup) used
by the source.  Machine-level details the source never observes (dict
iteration order, the iteration order of Python sets) are resolved by a
fixed deterministic choice and noted at the definition concerned.
Fallible code (KeyError on a missing dict key, pandas errors on a
duplicated index) is embedded with `Option`: `none` models an exception
escaping the translated fragment.
-/

/-- A node fragment as built by `UGLoader.parse_data_file`
(src/UberGraph/src/loadUG.py lines 168-170): a dict with keys
`grp`, `node_num`, `id`, `name`, `category`, `equivalent_identifiers`. -/
structure GraphNode where
  grp : String
  node_num : Nat
  id : String
  name : String
  category : String
  equivalent_identifiers : String
deriving DecidableEq, Repr

/-- An edge-relation fragment as built by `UGLoader.parse_data_file`
(src/UberGraph/src/loadUG.py line 169): a dict with keys
`grp`, `predicate`, `relation`, `edge_label`. -/
structure EdgeRecord where
  grp : String
  predicate : String
  relation : String
  edge_label : String
deriving DecidableEq, Repr

/-- The `id` sub-object of a normalization-service record: fields
`identifier` and (optionally) `label` (src/Common/utils.py lines 192-203,
spec section 6). -/
structure IdObject where
  identifier : String
  label : Option String
deriving DecidableEq, Repr

/-- A normalization-service record for one identifier: the `id` object, an
optional `type` (ordered category list) and optional
`equivalent_identifiers`.  The service returns the equivalent identifiers
as a list of objects with an `identifier` field, of which the code only
reads that field (src/Common/utils.py line 200), so they are embedded as
the projected list of strings. -/
structure NormRecord where
  id : IdObject
  type : Option (List String)
  equivalent_identifiers : Option (List String)
deriving DecidableEq, Repr

/-- The normalization cache: a Python dict from identifier to
(record or `None`).  `some none` embeds a key present with value `None`
(looked up, unresolved); absence of the key embeds "never looked up".
Represented as an association list where an update prepends and a lookup
takes the first match. -/
abbrev NormCache := List (String × Option NormRecord)

/-- Dict lookup: first match in the association list. -/
def lookupC (c : NormCache) (k : String) : Option (Option NormRecord) :=
  List.lookup k c

/-- Dict membership test, as in `node_list[node_idx]['id'] in
cached_node_norms` (src/Common/utils.py line 117): a key mapped to `None`
is a member. -/
def cacheHas (c : NormCache) (k : String) : Bool :=
  (lookupC c k).isSome

/-- Outcome of one batched request to the normalization service
(src/Common/utils.py lines 155-173): status 200 with a JSON body mapping
each submitted identifier to a record or `null`, or any other status
(total chunk failure). -/
inductive ServiceResponse where
  | success (rvs : List (String × Option NormRecord))
  | failure
deriving DecidableEq, Repr

/-- The normalization service consumed by the loader, abstracted as a
function from the submitted chunk of identifiers to its response. -/
abbrev NormService := List String → ServiceResponse

/-- The first loop of `normalize_node_data` (src/Common/utils.py lines
112-126): collect into a set the ids of `node_list` that are not yet keys
of `cached_node_norms`, then turn the set into a list.  The iteration
order of a Python set is unspecified; the embedding fixes it with
`List.dedup`. -/
def to_normalize (cached : NormCache) (node_list : List GraphNode) : List String :=
  ((node_list.map (fun n => n.id)).filter (fun i => !(cacheHas cached i))).dedup

/-- Fuel-driven body of `chunksOf`; the fuel is an upper bound on the list
length, so the zero-fuel case is never reached from `chunksOf`. -/
def chunksOfAux (c : Nat) : Nat → List String → List (List String)
  | _, [] => []
  | 0, _ :: _ => []
  | fuel + 1, x :: xs => (x :: xs).take c :: chunksOfAux c fuel ((x :: xs).drop c)

/-- The chunking loop of `normalize_node_data` (src/Common/utils.py lines
140-178): successive slices `to_normalize[start : start + c]` until the
list is exhausted.  The source pins `c = chunk_size = 1000` (line 129);
with `c = 0` the source loop would not terminate, and the embedding
returns `[]` for that unreachable case. -/
def chunksOf (c : Nat) (l : List String) : List (List String) :=
  if c = 0 then [] else chunksOfAux c l.length l

/-- Python dict merge `{**cached, **rvs}` (src/Common/utils.py line 163):
a fresh dict holding both, entries of `rvs` winning.  With first-match
lookup, prepending `rvs` realises exactly that. -/
def dictMerge (cached : NormCache) (rvs : List (String × Option NormRecord)) : NormCache :=
  rvs ++ cached

/-- The failure branch of the chunk loop (src/Common/utils.py lines
172-173): `for item in data_chunk: cached_node_norms.update({item: None})`. -/
def markChunkFailed (chunk : List String) (c : NormCache) : NormCache :=
  chunk.foldl (fun acc item => (item, none) :: acc) c

/-- State of the chunk loop.  `cached_node_norms` is the dict currently
bound to the local variable of that name; `caller_dict` is the dict object
the caller passed in; `aliased` records whether the two are still the same
object.  They start aliased; the success branch rebinds the local name to
a fresh merged dict (line 163-166), breaking the alias, while the failure
branch mutates the currently bound dict in place (line 173), which reaches
the caller's dict exactly while the alias is intact. -/
structure NormState where
  cached_node_norms : NormCache
  caller_dict : NormCache
  aliased : Bool
deriving DecidableEq, Repr

/-- One iteration of the chunk loop of `normalize_node_data`
(src/Common/utils.py lines 140-178) on the state above. -/
def processChunk (svc : NormService) (st : NormState) (chunk : List String) : NormState :=
  match svc chunk with
  | ServiceResponse.success rvs =>
      { cached_node_norms := dictMerge st.cached_node_norms rvs
        caller_dict := st.caller_dict
        aliased := false }
  | ServiceResponse.failure =>
      let c' := markChunkFailed chunk st.cached_node_norms
      { cached_node_norms := c'
        caller_dict := if st.aliased then c' else st.caller_dict
        aliased := st.aliased }

/-- The whole chunk loop: fold `processChunk` over the chunks in order. -/
def processChunks (svc : NormService) (st : NormState) (chunks : List (List String)) : NormState :=
  chunks.foldl (processChunk svc) st

/-- The body of the cache-application ("rewrite") loop of
`normalize_node_data` for one node (src/Common/utils.py lines 185-208).
A missing cache key raises `KeyError` (embedded `none`); a key mapped to
`None` leaves the fragment untouched (only a debug log); a record replaces
`name` by the label when present, `category` by the pipe-joined `type`
when present, `equivalent_identifiers` by the pipe-joined list when
present and non-empty, and finally `id` by the canonical identifier. -/
def rewriteNode (c : NormCache) (n : GraphNode) : Option GraphNode :=
  match lookupC c n.id with
  | none => none
  | some none => some n
  | some (some r) =>
      some { n with
        name := match r.id.label with
          | some lb => lb
          | none => n.name
        category := match r.type with
          | some t => String.intercalate "|" t
          | none => n.category
        equivalent_identifiers := match r.equivalent_identifiers with
          | some eqs => if eqs.length > 0 then String.intercalate "|" eqs else n.equivalent_identifiers
          | none => n.equivalent_identifiers
        id := r.id.identifier }

/-- The rewrite loop over the whole node list (src/Common/utils.py lines
180-208); an exception for any node aborts the call. -/
def rewriteNodes (c : NormCache) : List GraphNode → Option (List GraphNode)
  | [] => some []
  | n :: rest =>
      match rewriteNode c n, rewriteNodes c rest with
      | some n', some rest' => some (n' :: rest')
      | _, _ => none

/-- Result of a call to `normalize_node_data`: the returned value
(`node_list` after rewriting, line 211; `none` if an exception escaped),
the dict finally bound to the local `cached_node_norms`, and the final
state of the dict object the caller supplied. -/
structure NormResult where
  ret : Option (List GraphNode)
  cached_final : NormCache
  caller_final : NormCache
deriving DecidableEq, Repr

/-- The algorithm of `NodeNormUtils.normalize_node_data`
(src/Common/utils.py lines 95-211) with the chunk size as an explicit
parameter: collect the not-yet-cached ids, process them in chunks of
`chunk_size` against the service, then rewrite the node list from the
final dict bound to the local variable. -/
def normalizeCore (chunk_size : Nat) (svc : NormService) (node_list : List GraphNode)
    (cached_node_norms : NormCache) : NormResult :=
  let to_norm := to_normalize cached_node_norms node_list
  let st := processChunks svc
    { cached_node_norms := cached_node_norms
      caller_dict := cached_node_norms
      aliased := true }
    (chunksOf chunk_size to_norm)
  { ret := rewriteNodes st.cached_node_norms node_list
    cached_final := st.cached_node_norms
    caller_final := st.caller_dict }

/-- `NodeNormUtils.normalize_node_data` with the source's pinned chunk
size of 1000 (src/Common/utils.py line 129). -/
def normalize_node_data (svc : NormService) (node_list : List GraphNode)
    (cached_node_norms : NormCache) : NormResult :=
  normalizeCore 1000 svc node_list cached_node_norms

/-- Hexadecimal digit characters, lower case, as produced by
`hexdigest()`. -/
def hexDigitChar (k : Nat) : Char :=
  if k < 10 then Char.ofNat (48 + k) else Char.ofNat (87 + k)

/-- Modelled from the spec: `hashlib.md5(edge.encode('utf-8')).hexdigest()`
(src/UberGraph/src/loadUG.py line 368) is library code not under src/;
per the spec (section 3, Glossary) it is "a deterministic digest of a
record's serialized text", rendered by `hexdigest` as 32 lower-case
hexadecimal characters.  The embedding keeps exactly those interface
properties: a pure function of the input string whose output is 32 hex
characters. -/
def md5hexChars (s : String) : List Char :=
  let n := s.data.foldl (fun acc ch => (acc * 257 + ch.toNat + 1) % (2 ^ 128)) 7
  (List.range 32).map (fun i => hexDigitChar ((n / 16 ^ (31 - i)) % 16))

/-- The hex digest as a string. -/
def md5hex (s : String) : String :=
  String.mk (md5hexChars s)

/-- Serialized text of one edge (src/UberGraph/src/loadUG.py lines
362-365).  In json mode the f-string starts with a comma and closes an
object it never opens; in tsv mode it starts with a tab, i.e. with an
empty first field before the `subject` column. -/
def edge_text (output_mode : String) (source_node_id edge_relation object_node_id data_source_name : String) : String :=
  if output_mode = "json" then
    ", \"subject\":\"" ++ source_node_id ++ "\", \"relation\":\"" ++ edge_relation ++
      "\", \"object\":\"" ++ object_node_id ++ "\", \"edge_label\":\"" ++ edge_relation ++
      "\", \"source_database\":\"" ++ data_source_name ++ "\"\x7d"
  else
    "\t" ++ source_node_id ++ "\t" ++ edge_relation ++ "\t" ++ edge_relation ++
      "\t" ++ object_node_id ++ "\t" ++ data_source_name

/-- The emission of one edge into the deduplicating output set
(src/UberGraph/src/loadUG.py line 368):
`self.final_edge_set.add(hashlib.md5(edge.encode('utf-8')).hexdigest() + edge)`. -/
def emit_edge (acc : Finset String) (edge : String) : Finset String :=
  insert (md5hex edge ++ edge) acc

/-- Emission of a sequence of edge texts, in order. -/
def emit_all (acc : Finset String) (l : List String) : Finset String :=
  l.foldl emit_edge acc

/-- Result of `df.loc[cur_grp_name].relation` (src/UberGraph/src/loadUG.py
lines 288-289 and 344): with the group key appearing on exactly one row of
`edge_list` the lookup yields that row's `relation` string; with the key
absent, `.loc` raises `KeyError` (embedded `none`); with the key on
several rows `.loc` yields a Series, which raises only when it is later
compared against the empty string. -/
inductive RelValue where
  | scalar (s : String)
  | series
deriving DecidableEq, Repr

/-- Look up the relation for a group key in the edge-relation table. -/
def locRelation (edge_list : List EdgeRecord) (grp : String) : Option RelValue :=
  match edge_list.filter (fun e => e.grp == grp) with
  | [] => none
  | [e] => some (RelValue.scalar e.relation)
  | _ => some RelValue.series

/-- The inner scan of a group (src/UberGraph/src/loadUG.py lines 347-358):
walk the run, keeping the id of the last fragment with `node_num == 1` as
subject and of the last with `node_num == 2` as object (both start as the
empty string; other values of `node_num` only produce an error log). -/
def pickEnds (run : List GraphNode) : String × String :=
  run.foldl
    (fun p g =>
      if g.node_num = 1 then (g.id, p.2)
      else if g.node_num = 2 then (p.1, g.id)
      else p)
    ("", "")

/-- Output of `write_edge_data`: the contents of `self.final_edge_set`
and the warning/anomaly log entries produced (progress debug logs are
elided). -/
structure EdgeWriteResult where
  final_edge_set : Finset String
  logs : List String
deriving DecidableEq

/-- The grouping loop of `write_edge_data` (src/UberGraph/src/loadUG.py
lines 299-381), fuel-driven; the fuel is an upper bound on the list
length, so the zero-fuel case is never reached from `write_edge_loop`.
Each step collects the maximal contiguous run sharing the first node's
`grp` (the inner while of lines 312-321).  A run of fewer than two
fragments is skipped (lines 326-333).  A run of more than two fragments
logs the anomaly of line 325 but, having no `continue`, falls through to
the edge-construction code exactly as the source does.  For runs of two
or more: the relation is fetched (line 344, exceptions propagate), the
subject and object are the last position-1 and position-2 ids (lines
347-358), and if subject, object and relation are all non-empty the edge
is emitted into the dedup set (lines 361-368); a Series relation raises
at the comparison of line 361 only after subject and object both tested
non-empty. -/
def write_edge_aux (edge_list : List EdgeRecord) (output_mode data_source_name : String) :
    Nat → List GraphNode → Finset String → List String → Option EdgeWriteResult
  | _, [], acc, logs => some { final_edge_set := acc, logs := logs }
  | 0, _ :: _, _, _ => none
  | fuel + 1, n :: rest, acc, logs =>
      let run := n :: rest.takeWhile (fun m => m.grp == n.grp)
      let rest' := rest.dropWhile (fun m => m.grp == n.grp)
      if run.length < 2 then
        write_edge_aux edge_list output_mode data_source_name fuel rest' acc logs
      else
        let logs₁ := if run.length > 2 then logs ++ ["Nodes in group > 2 " ++ n.grp] else logs
        match locRelation edge_list n.grp with
        | none => none
        | some rv =>
            let ends := pickEnds run
            if ends.1 = "" then
              write_edge_aux edge_list output_mode data_source_name fuel rest' acc
                (logs₁ ++ ["Node or edge relationship missing"])
            else if ends.2 = "" then
              write_edge_aux edge_list output_mode data_source_name fuel rest' acc
                (logs₁ ++ ["Node or edge relationship missing"])
            else
              match rv with
              | RelValue.series => none
              | RelValue.scalar r =>
                  if r = "" then
                    write_edge_aux edge_list output_mode data_source_name fuel rest' acc
                      (logs₁ ++ ["Node or edge relationship missing"])
                  else
                    write_edge_aux edge_list output_mode data_source_name fuel rest'
                      (emit_edge acc (edge_text output_mode ends.1 r ends.2 data_source_name)) logs₁

/-- The grouping loop started on a sorted node list with full fuel, an
empty edge set and no logs. -/
def write_edge_loop (edge_list : List EdgeRecord) (output_mode data_source_name : String)
    (sorted_nodes : List GraphNode) : Option EdgeWriteResult :=
  write_edge_aux edge_list output_mode data_source_name sorted_nodes.length sorted_nodes ∅ []

/-- Stable insertion by group key, comparing the key strings by their
character sequences (Python compares strings by code points). -/
def insertByGrp (n : GraphNode) : List GraphNode → List GraphNode
  | [] => [n]
  | m :: rest =>
      if n.grp.data ≤ m.grp.data then n :: m :: rest else m :: insertByGrp n rest

/-- `sorted(node_list, key=itemgetter('grp'))` (src/UberGraph/src/loadUG.py
line 293).  Python's sort is stable; any two stable sorts by the same key
agree, so the embedding uses a stable insertion sort. -/
def sortNodes : List GraphNode → List GraphNode
  | [] => []
  | n :: rest => insertByGrp n (sortNodes rest)

/-- `UGLoader.write_edge_data` (src/UberGraph/src/loadUG.py lines
270-382): sort the fragments by group key, then run the grouping loop. -/
def write_edge_data (node_list : List GraphNode) (edge_list : List EdgeRecord)
    (output_mode data_source_name : String) : Option EdgeWriteResult :=
  write_edge_loop edge_list output_mode data_source_name (sortNodes node_list)

/-- First tab-separated field of a tsv line. -/
def tsvFirstField (s : String) : String :=
  String.mk (s.data.takeWhile (fun ch => ch ≠ '\t'))

/-- Concrete normalization record used by example runs. -/
def exRec : NormRecord := ⟨⟨"N:1", none⟩, none, none⟩

/-- Concrete node fragments used by example runs: three fragments with
distinct identifiers. -/
def exNodes : List GraphNode :=
  [⟨"g1", 1, "A", "A", "", ""⟩, ⟨"g1", 2, "B", "B", "", ""⟩, ⟨"g2", 1, "C", "C", "", ""⟩]

/-- Concrete service used by example runs: chunks of exactly two
identifiers succeed (resolving every submitted id to `exRec`), any other
chunk returns a failure status. -/
def exSvc : NormService := fun c =>
  if c.length = 2 then ServiceResponse.success (c.map (fun i => (i, some exRec)))
  else ServiceResponse.failure

/-- A success response is well formed over a list of chunks when its keys
are exactly the submitted chunk (spec section 6: a 200 response maps each
submitted identifier). -/
def svcWellFormed (svc : NormService) (chunks : List (List String)) : Prop :=
  ∀ c ∈ chunks, ∀ rvs, svc c = ServiceResponse.success rvs → rvs.map Prod.fst = c

/-- Canonical closure of a cache, used to amend the idempotence claim:
every record stored in the cache has its own canonical identifier mapped
by the cache either to Unresolved or to that same record. -/
def canonicalClosed (c : NormCache) : Bool :=
  c.all (fun p =>
    match p.2 with
    | none => true
    | some r =>
        decide (lookupC c r.id.identifier = some none) ||
          decide (lookupC c r.id.identifier = some (some r)))

/-- The identifiers of the input fragments that are still Unresolved in a
cache.  Modelled from the spec (section 4.2: "Returns the final Unresolved
subset for diagnostic reporting"), for comparison with what the source
actually returns. -/
def still_unresolved (c : NormCache) (node_list : List GraphNode) : List String :=
  ((node_list.map (fun n => n.id)).filter (fun i => decide (lookupC c i = some none))).dedup

theorem lookup_isSome_of_mem_keys {β : Type} {l : List (String × β)} {k : String}
    (h : k ∈ l.map Prod.fst) : (List.lookup k l).isSome := by
  induction l with
  | nil => simp at h
  | cons p rest ih =>
      obtain ⟨a, b⟩ := p
      by_cases hk : k = a
      · simp [List.lookup, hk]
      · have hb : (k == a) = false := beq_eq_false_iff_ne.mpr hk
        have hmem : k ∈ rest.map Prod.fst := by
          simp only [List.map_cons, List.mem_cons] at h
          rcases h with h | h
          · exact absurd h hk
          · exact h
        simp only [List.lookup, hb]
        exact ih hmem

theorem lookup_eq_none_of_not_mem_keys {β : Type} {l : List (String × β)} {k : String}
    (h : k ∉ l.map Prod.fst) : List.lookup k l = none := by
  induction l with
  | nil => rfl
  | cons p rest ih =>
      obtain ⟨a, b⟩ := p
      simp only [List.map_cons, List.mem_cons, not_or] at h
      have hb : (k == a) = false := beq_eq_false_iff_ne.mpr h.1
      simp only [List.lookup, hb]
      exact ih h.2

theorem mem_of_lookup_eq_some {β : Type} {l : List (String × β)} {k : String} {v : β}
    (h : List.lookup k l = some v) : (k, v) ∈ l := by
  induction l with
  | nil => simp [List.lookup] at h
  | cons p rest ih =>
      obtain ⟨a, b⟩ := p
      by_cases hk : k = a
      · simp only [List.lookup, hk, beq_self_eq_true] at h
        subst hk
        cases h
        exact List.mem_cons_self _ _
      · have hb : (k == a) = false := beq_eq_false_iff_ne.mpr hk
        simp only [List.lookup, hb] at h
        exact List.mem_cons_of_mem _ (ih h)

theorem markChunkFailed_lookup_of_not_mem {chunk : List String} {c : NormCache} {k : String}
    (h : k ∉ chunk) : lookupC (markChunkFailed chunk c) k = lookupC c k := by
  induction chunk generalizing c with
  | nil => rfl
  | cons x xs ih =>
      simp only [List.mem_cons, not_or] at h
      have step : markChunkFailed (x :: xs) c = markChunkFailed xs ((x, none) :: c) := rfl
      rw [step, ih h.2]
      have hb : (k == x) = false := beq_eq_false_iff_ne.mpr h.1
      simp [lookupC, List.lookup, hb]

theorem markChunkFailed_lookup_of_mem {chunk : List String} {c : NormCache} {k : String}
    (h : k ∈ chunk) : lookupC (markChunkFailed chunk c) k = some none := by
  induction chunk generalizing c with
  | nil => simp at h
  | cons x xs ih =>
      have step : markChunkFailed (x :: xs) c = markChunkFailed xs ((x, none) :: c) := rfl
      by_cases hx : k ∈ xs
      · rw [step, ih hx]
      · have hk : k = x := by
          rcases List.mem_cons.mp h with h' | h'
          · exact h'
          · exact absurd h' hx
        rw [step, markChunkFailed_lookup_of_not_mem hx]
        simp [lookupC, List.lookup, hk]

theorem dictMerge_lookup {c : NormCache} {rvs : List (String × Option NormRecord)} {k : String} :
    lookupC (dictMerge c rvs) k = (List.lookup k rvs).or (List.lookup k c) := by
  simp [dictMerge, lookupC, List.lookup_append]

theorem chunksOfAux_flatten {c : Nat} (hc : 0 < c) :
    ∀ (fuel : Nat) (l : List String), l.length ≤ fuel → (chunksOfAux c fuel l).flatten = l := by
  intro fuel
  induction fuel with
  | zero =>
      intro l hl
      match l with
      | [] => rfl
      | x :: xs => simp at hl
  | succ fuel ih =>
      intro l hl
      match l with
      | [] => rfl
      | x :: xs =>
          have hdrop : ((x :: xs).drop c).length ≤ fuel := by
            have hlen : ((x :: xs).drop c).length = (x :: xs).length - c := by
              simp [List.length_drop]
            have hxl : (x :: xs).length = xs.length + 1 := by simp
            omega
          simp only [chunksOfAux, List.flatten_cons, ih _ hdrop, List.take_append_drop]

theorem chunksOf_flatten {c : Nat} (hc : 0 < c) (l : List String) :
    (chunksOf c l).flatten = l := by
  have : ¬ c = 0 := Nat.pos_iff_ne_zero.mp hc
  simp only [chunksOf, if_neg this]
  exact chunksOfAux_flatten hc l.length l (le_refl _)

theorem processChunks_append (svc : NormService) (st : NormState) (l₁ l₂ : List (List String)) :
    processChunks svc st (l₁ ++ l₂) = processChunks svc (processChunks svc st l₁) l₂ := by
  simp [processChunks, List.foldl_append]

theorem processChunks_cached_lookup_of_disjoint (svc : NormService) {chunks : List (List String)}
    {k : String} (st : NormState) (hdisj : ∀ c ∈ chunks, k ∉ c)
    (hwf : svcWellFormed svc chunks) :
    lookupC (processChunks svc st chunks).cached_node_norms k = lookupC st.cached_node_norms k := by
  induction chunks generalizing st with
  | nil => rfl
  | cons c rest ih =>
      have hstep : processChunks svc st (c :: rest) = processChunks svc (processChunk svc st c) rest := rfl
      rw [hstep]
      have hrest : ∀ c' ∈ rest, k ∉ c' := fun c' hc' => hdisj c' (List.mem_cons_of_mem _ hc')
      have hwfrest : svcWellFormed svc rest := fun c' hc' => hwf c' (List.mem_cons_of_mem _ hc')
      rw [ih (processChunk svc st c) hrest hwfrest]
      have hkc : k ∉ c := hdisj c (List.mem_cons_self _ _)
      cases hsvc : svc c with
      | success rvs =>
          have hkeys : rvs.map Prod.fst = c := hwf c (List.mem_cons_self _ _) rvs hsvc
          have hnone : List.lookup k rvs = none := by
            apply lookup_eq_none_of_not_mem_keys
            rw [hkeys]
            exact hkc
          simp only [processChunk, hsvc, lookupC]
          have : lookupC (dictMerge st.cached_node_norms rvs) k = (List.lookup k rvs).or (List.lookup k st.cached_node_norms) := dictMerge_lookup
          simp only [lookupC] at this
          rw [this, hnone, Option.none_or]
      | failure =>
          simp [processChunk, hsvc]
          exact markChunkFailed_lookup_of_not_mem hkc

theorem processChunks_cached_isSome_mono (svc : NormService) {chunks : List (List String)}
    {k : String} (st : NormState) (h : (lookupC st.cached_node_norms k).isSome) :
    (lookupC (processChunks svc st chunks).cached_node_norms k).isSome := by
  induction chunks generalizing st with
  | nil => exact h
  | cons c rest ih =>
      have hstep : processChunks svc st (c :: rest) = processChunks svc (processChunk svc st c) rest := rfl
      rw [hstep]
      apply ih
      cases hsvc : svc c with
      | success rvs =>
          simp only [processChunk, hsvc, dictMerge_lookup, Option.isSome_or]
          simp only [lookupC] at h
          simp [h]
      | failure =>
          by_cases hkc : k ∈ c
          · simp only [processChunk, hsvc]
            rw [markChunkFailed_lookup_of_mem hkc]
            rfl
          · simp only [processChunk, hsvc]
            rw [markChunkFailed_lookup_of_not_mem hkc]
            exact h

theorem not_mem_to_normalize_of_cacheHas {c : NormCache} {node_list : List GraphNode} {k : String}
    (h : cacheHas c k = true) : k ∉ to_normalize c node_list := by
  intro hmem
  have := (List.mem_filter.mp (List.mem_dedup.mp hmem)).2
  simp [h] at this

theorem nodup_flatten_disjoint {L : List (List String)} (h : L.flatten.Nodup)
    {i j : Nat} {ci cj : List String} (hi : L[i]? = some ci) (hj : L[j]? = some cj)
    (hij : i ≠ j) {k : String} (hk : k ∈ ci) : k ∉ cj := by
  have hpw := (List.nodup_flatten.mp h).2
  rw [List.pairwise_iff_get] at hpw
  obtain ⟨hilt, hie⟩ := List.getElem?_eq_some.mp hi
  obtain ⟨hjlt, hje⟩ := List.getElem?_eq_some.mp hj
  intro hkj
  rcases Nat.lt_or_ge i j with hlt | hge
  · have hd := hpw ⟨i, hilt⟩ ⟨j, hjlt⟩ hlt
    simp only [List.get_eq_getElem, hie, hje] at hd
    exact hd hk hkj
  · have hjlt' : j < i := Nat.lt_of_le_of_ne hge (Ne.symm hij)
    have hd := hpw ⟨j, hjlt⟩ ⟨i, hilt⟩ hjlt'
    simp only [List.get_eq_getElem, hie, hje] at hd
    exact hd hkj hk

theorem chunks_decomposition {L : List (List String)} {i : Nat} {ci : List String}
    (hi : L[i]? = some ci) : L = L.take i ++ ci :: L.drop (i + 1) := by
  obtain ⟨hlt, he⟩ := List.getElem?_eq_some.mp hi
  conv_lhs => rw [(List.take_append_drop i L).symm]
  rw [List.drop_eq_getElem_cons hlt, he]

theorem processChunks_final_of_chunk_failed {svc : NormService} {chunks : List (List String)}
    {i : Nat} {ci : List String} {k : String} (st₀ : NormState)
    (hi : chunks[i]? = some ci) (hfail : svc ci = ServiceResponse.failure) (hk : k ∈ ci)
    (hnd : chunks.flatten.Nodup) (hwf : svcWellFormed svc chunks) :
    lookupC (processChunks svc st₀ chunks).cached_node_norms k = some none := by
  have hdec := chunks_decomposition hi
  rw [hdec, processChunks_append]
  have hstep : processChunks svc (processChunks svc st₀ (chunks.take i)) (ci :: chunks.drop (i + 1)) =
      processChunks svc (processChunk svc (processChunks svc st₀ (chunks.take i)) ci) (chunks.drop (i + 1)) := rfl
  rw [hstep]
  have hpost : ∀ c ∈ chunks.drop (i + 1), k ∉ c := by
    intro c hc hkc
    obtain ⟨j, hjlt, hje⟩ := List.mem_iff_getElem.mp hc
    have hlen : i + 1 + j < chunks.length := by
      have := List.length_drop (i + 1) chunks
      omega
    have hcj : chunks[i + 1 + j]? = some c := by
      rw [List.getElem?_eq_some]
      refine ⟨hlen, ?_⟩
      rw [← @List.getElem_drop _ chunks (i + 1) j hjlt]
      exact hje
    exact nodup_flatten_disjoint hnd hi hcj (by omega) hk hkc
  have hwfpost : svcWellFormed svc (chunks.drop (i + 1)) := by
    intro c hc
    exact hwf c (by rw [hdec]; exact List.mem_append_right _ (List.mem_cons_of_mem _ hc))
  rw [processChunks_cached_lookup_of_disjoint svc _ hpost hwfpost]
  simp only [processChunk, hfail]
  exact markChunkFailed_lookup_of_mem hk

theorem processChunks_final_of_chunk_success {svc : NormService} {chunks : List (List String)}
    {i : Nat} {ci : List String} {rvs : List (String × Option NormRecord)} {k : String}
    (st₀ : NormState)
    (hi : chunks[i]? = some ci) (hs : svc ci = ServiceResponse.success rvs) (hk : k ∈ ci)
    (hnd : chunks.flatten.Nodup) (hwf : svcWellFormed svc chunks) :
    lookupC (processChunks svc st₀ chunks).cached_node_norms k = List.lookup k rvs := by
  have hdec := chunks_decomposition hi
  rw [hdec, processChunks_append]
  have hstep : processChunks svc (processChunks svc st₀ (chunks.take i)) (ci :: chunks.drop (i + 1)) =
      processChunks svc (processChunk svc (processChunks svc st₀ (chunks.take i)) ci) (chunks.drop (i + 1)) := rfl
  rw [hstep]
  have hpost : ∀ c ∈ chunks.drop (i + 1), k ∉ c := by
    intro c hc hkc
    obtain ⟨j, hjlt, hje⟩ := List.mem_iff_getElem.mp hc
    have hlen : i + 1 + j < chunks.length := by
      have := List.length_drop (i + 1) chunks
      omega
    have hcj : chunks[i + 1 + j]? = some c := by
      rw [List.getElem?_eq_some]
      refine ⟨hlen, ?_⟩
      rw [← @List.getElem_drop _ chunks (i + 1) j hjlt]
      exact hje
    exact nodup_flatten_disjoint hnd hi hcj (by omega) hk hkc
  have hwfpost : svcWellFormed svc (chunks.drop (i + 1)) := by
    intro c hc
    exact hwf c (by rw [hdec]; exact List.mem_append_right _ (List.mem_cons_of_mem _ hc))
  rw [processChunks_cached_lookup_of_disjoint svc _ hpost hwfpost]
  have hkeys : rvs.map Prod.fst = ci := hwf ci (by rw [hdec]; exact List.mem_append_right _ (List.mem_cons_self _ _)) rvs hs
  have hsome : (List.lookup k rvs).isSome := by
    apply lookup_isSome_of_mem_keys
    rw [hkeys]
    exact hk
  obtain ⟨v, hv⟩ := Option.isSome_iff_exists.mp hsome
  simp only [processChunk, hs]
  have hm : lookupC (dictMerge (processChunks svc st₀ (chunks.take i)).cached_node_norms rvs) k =
      (List.lookup k rvs).or (List.lookup k (processChunks svc st₀ (chunks.take i)).cached_node_norms) := dictMerge_lookup
  rw [hm, hv]
  rfl

theorem processChunks_isSome_of_mem_some_chunk {svc : NormService} {chunks : List (List String)}
    {ci : List String} {k : String} (st : NormState)
    (hc : ci ∈ chunks) (hk : k ∈ ci) (hwf : svcWellFormed svc chunks) :
    (lookupC (processChunks svc st chunks).cached_node_norms k).isSome := by
  induction chunks generalizing st with
  | nil => simp at hc
  | cons c rest ih =>
      have hstep : processChunks svc st (c :: rest) = processChunks svc (processChunk svc st c) rest := rfl
      rw [hstep]
      have hwfrest : svcWellFormed svc rest := fun c' hc' => hwf c' (List.mem_cons_of_mem _ hc')
      by_cases hkc : k ∈ c
      · apply processChunks_cached_isSome_mono
        cases hsvc : svc c with
        | success rvs =>
            have hkeys : rvs.map Prod.fst = c := hwf c (List.mem_cons_self _ _) rvs hsvc
            have hsome : (List.lookup k rvs).isSome := by
              apply lookup_isSome_of_mem_keys
              rw [hkeys]
              exact hkc
            simp only [processChunk, hsvc]
            have hm := @dictMerge_lookup st.cached_node_norms rvs k
            rw [hm, Option.isSome_or, hsome]
            rfl
        | failure =>
            simp only [processChunk, hsvc]
            rw [markChunkFailed_lookup_of_mem hkc]
            rfl
      · have hcrest : ci ∈ rest := by
          rcases List.mem_cons.mp hc with h | h
          · subst h
            exact absurd hk hkc
          · exact h
        exact ih _ hcrest hwfrest

theorem rewriteNode_of_unresolved {c : NormCache} {n : GraphNode}
    (h : lookupC c n.id = some none) : rewriteNode c n = some n := by
  simp [rewriteNode, h]

theorem rewriteNode_isSome_of_lookup {c : NormCache} {n : GraphNode}
    (h : (lookupC c n.id).isSome) : (rewriteNode c n).isSome := by
  cases hl : lookupC c n.id with
  | none => rw [hl] at h; simp at h
  | some v =>
      cases v with
      | none => simp [rewriteNode, hl]
      | some r => simp [rewriteNode, hl]

theorem rewriteNode_resolved_id {c : NormCache} {n n' : GraphNode} {r : NormRecord}
    (h : lookupC c n.id = some (some r)) (hn : rewriteNode c n = some n') :
    n'.id = r.id.identifier := by
  simp only [rewriteNode, h] at hn
  cases hn
  rfl

theorem rewriteNode_unresolved_unchanged {c : NormCache} {n n' : GraphNode}
    (h : lookupC c n.id = some none) (hn : rewriteNode c n = some n') : n' = n := by
  rw [rewriteNode_of_unresolved h] at hn
  cases hn
  rfl

theorem rewriteNodes_isSome {c : NormCache} {l : List GraphNode}
    (h : ∀ n ∈ l, (lookupC c n.id).isSome) : (rewriteNodes c l).isSome := by
  induction l with
  | nil => simp [rewriteNodes]
  | cons n rest ih =>
      have h1 : (rewriteNode c n).isSome := rewriteNode_isSome_of_lookup (h n (List.mem_cons_self _ _))
      have h2 : (rewriteNodes c rest).isSome := ih (fun m hm => h m (List.mem_cons_of_mem _ hm))
      obtain ⟨n', hn'⟩ := Option.isSome_iff_exists.mp h1
      obtain ⟨rest', hrest'⟩ := Option.isSome_iff_exists.mp h2
      simp [rewriteNodes, hn', hrest']

theorem rewriteNodes_forall₂ {c : NormCache} {l l' : List GraphNode}
    (h : rewriteNodes c l = some l') :
    List.Forall₂ (fun a b => rewriteNode c a = some b) l l' := by
  induction l generalizing l' with
  | nil =>
      simp only [rewriteNodes] at h
      cases h
      exact List.Forall₂.nil
  | cons n rest ih =>
      cases hn : rewriteNode c n with
      | none => simp [rewriteNodes, hn] at h
      | some n' =>
          cases hrest : rewriteNodes c rest with
          | none => simp [rewriteNodes, hn, hrest] at h
          | some rest' =>
              simp only [rewriteNodes, hn, hrest] at h
              cases h
              exact List.Forall₂.cons hn (ih hrest)

theorem canonicalClosed_spec {c : NormCache} (h : canonicalClosed c = true)
    {k : String} {r : NormRecord} (hl : lookupC c k = some (some r)) :
    lookupC c r.id.identifier = some none ∨ lookupC c r.id.identifier = some (some r) := by
  have hmem : (k, some r) ∈ c := mem_of_lookup_eq_some hl
  have := (List.all_eq_true.mp h) _ hmem
  simp only [Bool.or_eq_true, decide_eq_true_eq] at this
  exact this

theorem rewriteNode_idem {c : NormCache} (hcc : canonicalClosed c = true)
    {n n' : GraphNode} (h : rewriteNode c n = some n') : rewriteNode c n' = some n' := by
  cases hl : lookupC c n.id with
  | none => simp [rewriteNode, hl] at h
  | some v =>
      cases v with
      | none =>
          have := rewriteNode_unresolved_unchanged hl h
          subst this
          exact h
      | some r =>
          simp only [rewriteNode, hl] at h
          cases h
          have hid : (({ n with
              name := match r.id.label with
                | some lb => lb
                | none => n.name
              category := match r.type with
                | some t => String.intercalate "|" t
                | none => n.category
              equivalent_identifiers := match r.equivalent_identifiers with
                | some eqs => if eqs.length > 0 then String.intercalate "|" eqs else n.equivalent_identifiers
                | none => n.equivalent_identifiers
              id := r.id.identifier } : GraphNode)).id = r.id.identifier := rfl
          rcases canonicalClosed_spec hcc hl with hu | hr
      
          · rw [rewriteNode]
            rw [hid, hu]
          · rw [rewriteNode]
            rw [hid, hr]
            cases hlab : r.id.label <;> cases htyp : r.type <;> cases heqs : r.equivalent_identifiers <;>
              simp [hlab, htyp, heqs] <;>
              (intro hpos; rw [if_pos hpos])

theorem rewriteNodes_idem {c : NormCache} (hcc : canonicalClosed c = true) :
    ∀ {l l' : List GraphNode}, rewriteNodes c l = some l' → rewriteNodes c l' = some l' := by
  intro l
  induction l with
  | nil =>
      intro l' h
      simp only [rewriteNodes] at h
      cases h
      rfl
  | cons n rest ih =>
      intro l' h
      cases hn : rewriteNode c n with
      | none => simp [rewriteNodes, hn] at h
      | some n' =>
          cases hrest : rewriteNodes c rest with
          | none => simp [rewriteNodes, hn, hrest] at h
          | some rest' =>
              simp only [rewriteNodes, hn, hrest] at h
              cases h
              have h1 := rewriteNode_idem hcc hn
              have h2 := ih hrest
              simp [rewriteNodes, h1, h2]

theorem emit_all_append (acc : Finset String) (l₁ l₂ : List String) :
    emit_all acc (l₁ ++ l₂) = emit_all (emit_all acc l₁) l₂ := by
  simp [emit_all, List.foldl_append]

theorem mem_emit_all {a : String} {acc : Finset String} (l : List String) (h : a ∈ acc) :
    a ∈ emit_all acc l := by
  induction l generalizing acc with
  | nil => exact h
  | cons e rest ih =>
      have hstep : emit_all acc (e :: rest) = emit_all (emit_edge acc e) rest := rfl
      rw [hstep]
      exact ih (Finset.mem_insert_of_mem h)

theorem entry_mem_emit_all (acc : Finset String) (e : String) (l : List String) :
    md5hex e ++ e ∈ emit_all acc (e :: l) := by
  have hstep : emit_all acc (e :: l) = emit_all (emit_edge acc e) l := rfl
  rw [hstep]
  exact mem_emit_all l (Finset.mem_insert_self _ _)

theorem emit_edge_absorb {acc : Finset String} {e : String} (h : md5hex e ++ e ∈ acc) :
    emit_edge acc e = acc := by
  simp [emit_edge, Finset.insert_eq_self.mpr h]

theorem takeWhile_all_append {p : Char → Bool} {l₁ : List Char} (l₂ : List Char)
    (h : ∀ x ∈ l₁, p x = true) :
    List.takeWhile p (l₁ ++ l₂) = l₁ ++ List.takeWhile p l₂ := by
  induction l₁ with
  | nil => simp
  | cons a rest ih =>
      have ha : p a = true := h a (List.mem_cons_self _ _)
      have hrest : ∀ x ∈ rest, p x = true := fun x hx => h x (List.mem_cons_of_mem _ hx)
      simp [List.takeWhile_cons, ha, ih hrest]

theorem hexDigitChar_ne_tab : ∀ k : Nat, k < 16 → hexDigitChar k ≠ '\t' := by
  decide

theorem md5hexChars_sat (s : String) :
    ∀ x ∈ md5hexChars s, (decide (x ≠ '\t')) = true := by
  intro x hx
  simp only [md5hexChars, List.mem_map] at hx
  obtain ⟨i, _, hxe⟩ := hx
  have hlt : (s.data.foldl (fun acc ch => (acc * 257 + ch.toNat + 1) % (2 ^ 128)) 7 / 16 ^ (31 - i)) % 16 < 16 :=
    Nat.mod_lt _ (by norm_num)
  rw [← hxe]
  simp only [decide_eq_true_eq]
  exact hexDigitChar_ne_tab _ hlt

theorem md5hexChars_length (s : String) : (md5hexChars s).length = 32 := by
  simp [md5hexChars]

theorem md5hex_ne_empty (s : String) : md5hex s ≠ "" := by
  intro h
  have hd := congrArg String.data h
  have : (md5hexChars s).length = (0 : Nat) := by
    have hmk : (md5hex s).data = md5hexChars s := rfl
    rw [← hmk, hd]
    rfl
  rw [md5hexChars_length] at this
  exact absurd this (by norm_num)

theorem tsvFirstField_digest (x r : String) :
    tsvFirstField (md5hex x ++ ("\t" ++ r)) = md5hex x := by
  have hdata : (md5hex x ++ ("\t" ++ r)).data = md5hexChars x ++ ('\t' :: r.data) := by
    rw [String.data_append, String.data_append]
    rfl
  have htw : ((md5hex x ++ ("\t" ++ r)).data).takeWhile (fun ch => ch ≠ '\t') = md5hexChars x := by
    rw [hdata, takeWhile_all_append _ (md5hexChars_sat x)]
    simp [List.takeWhile_cons]
  rw [tsvFirstField, htw]
  rfl

theorem edge_text_tsv_decompose (a b c d : String) :
    edge_text "tsv" a b c d = "\t" ++ (a ++ "\t" ++ b ++ "\t" ++ b ++ "\t" ++ c ++ "\t" ++ d) := by
  have hne : ¬ (("tsv" : String) = "json") := by decide
  simp only [edge_text, if_neg hne]
  simp [String.append_assoc]

/-- The service of the example runs is well formed on the chunking of the
example nodes with chunk size 2. -/
theorem exSvc_wf : svcWellFormed exSvc (chunksOf 2 (to_normalize [] exNodes)) := by
  have hch : chunksOf 2 (to_normalize [] exNodes) = [["A", "B"], ["C"]] := by decide
  rw [hch]
  intro c hc rvs hresp
  fin_cases hc
  · have hv : exSvc ["A", "B"] = ServiceResponse.success [("A", some exRec), ("B", some exRec)] := by decide
    rw [hv] at hresp
    cases hresp
    decide
  · have hv : exSvc ["C"] = ServiceResponse.failure := by decide
    rw [hv] at hresp
    exact ServiceResponse.noConfusion hresp

/-- Totality of a normalization run: when every well-formed chunk response
keys its own chunk, every identifier of the node list receives a cache
entry, so the rewrite loop raises no KeyError and the call returns. -/
theorem normalizeCore_ret_isSome (chunk_size : Nat) (svc : NormService)
    (node_list : List GraphNode) (cache₀ : NormCache) (hcs : 0 < chunk_size)
    (hwf : svcWellFormed svc (chunksOf chunk_size (to_normalize cache₀ node_list))) :
    ((normalizeCore chunk_size svc node_list cache₀).ret).isSome := by
  apply rewriteNodes_isSome
  intro n hn
  by_cases hc0 : cacheHas cache₀ n.id
  · apply processChunks_cached_isSome_mono
    exact hc0
  · have hmem : n.id ∈ to_normalize cache₀ node_list := by
      apply List.mem_dedup.mpr
      apply List.mem_filter.mpr
      refine ⟨List.mem_map_of_mem _ hn, ?_⟩
      simp [hc0]
    have hfl : n.id ∈ (chunksOf chunk_size (to_normalize cache₀ node_list)).flatten := by
      rw [chunksOf_flatten hcs]
      exact hmem
    obtain ⟨ci, hci, hk⟩ := List.mem_flatten.mp hfl
    exact processChunks_isSome_of_mem_some_chunk _ hci hk hwf

/-- C1: the claim states that a contiguous run of more than two fragments
sharing a group key logs the anomaly and emits no edge.  The source logs
the anomaly (loadUG.py line 325) but the `> 2` branch has no `continue`,
so control falls through to the edge-construction code and one edge is
emitted, pairing the last position-1 fragment with the last position-2
fragment.  Here three fragments under group `H` (positions 1, 2, 1 with
ids A, B, C) produce the anomaly log entry and also the edge C - R - B. -/
theorem three_fragment_group_still_emits_edge :
    write_edge_data
        [⟨"H", 1, "A", "A", "", ""⟩, ⟨"H", 2, "B", "B", "", ""⟩, ⟨"H", 1, "C", "C", "", ""⟩]
        [⟨"H", "R", "R", "R"⟩] "tsv" "SRC" =
      some ⟨{md5hex (edge_text "tsv" "C" "R" "B" "SRC") ++ edge_text "tsv" "C" "R" "B" "SRC"},
        ["Nodes in group > 2 H"]⟩ := by
  decide

/-- C2: the claim states that after `normalize_node_data` returns, the
mappings obtained from every successful chunk are present in the
caller-supplied cache dict, so the id is never sent to the service again
in the run.  In the source the success branch executes
`cached_node_norms = {**cached_node_norms, **rvs}` (utils.py lines
163-166), rebinding the local name to a fresh dict and leaving the
caller's dict object untouched.  Here one id "A" is resolved by a
successful chunk: the resolution is in the final local dict, the
caller-supplied dict ends the call still empty, and a subsequent call
reusing that dict would send "A" to the service again. -/
theorem successful_chunk_lost_to_caller_cache :
    (normalize_node_data (fun _ => ServiceResponse.success [("A", some ⟨⟨"B:1", none⟩, none, none⟩)])
        [⟨"g", 1, "A", "A", "", ""⟩] []).caller_final = [] ∧
    lookupC (normalize_node_data (fun _ => ServiceResponse.success [("A", some ⟨⟨"B:1", none⟩, none, none⟩)])
        [⟨"g", 1, "A", "A", "", ""⟩] []).cached_final "A" = some (some ⟨⟨"B:1", none⟩, none, none⟩) ∧
    "A" ∈ to_normalize
        ((normalize_node_data (fun _ => ServiceResponse.success [("A", some ⟨⟨"B:1", none⟩, none, none⟩)])
          [⟨"g", 1, "A", "A", "", ""⟩] []).caller_final)
        [⟨"g", 1, "A", "A", "", ""⟩] := by
  refine ⟨by decide, by decide, by decide⟩

/-- C3: chunk sacrifice.  For a run of the normalization algorithm over
any chunk size, any service and any node list: a chunk whose batch
request returns a non-success status has every one of its identifiers
marked Unresolved (mapped to None) in the run's final cache; a chunk
whose request succeeded keeps exactly the mappings of its response in the
final cache (in particular its resolved identifiers stay Resolved); and
no exception propagates - the call returns its value.
`normalize_node_data` is `normalizeCore` at the source's pinned chunk
size 1000. -/
theorem chunk_sacrifice (chunk_size : Nat) (svc : NormService) (node_list : List GraphNode)
    (cache₀ : NormCache) (hcs : 0 < chunk_size)
    (hwf : svcWellFormed svc (chunksOf chunk_size (to_normalize cache₀ node_list))) :
    (∀ (i : Nat) (ci : List String),
        (chunksOf chunk_size (to_normalize cache₀ node_list))[i]? = some ci →
        svc ci = ServiceResponse.failure → ∀ k ∈ ci,
        lookupC (normalizeCore chunk_size svc node_list cache₀).cached_final k = some none) ∧
    (∀ (i : Nat) (ci : List String) (rvs : List (String × Option NormRecord)),
        (chunksOf chunk_size (to_normalize cache₀ node_list))[i]? = some ci →
        svc ci = ServiceResponse.success rvs → ∀ k ∈ ci,
        lookupC (normalizeCore chunk_size svc node_list cache₀).cached_final k = List.lookup k rvs) ∧
    ((normalizeCore chunk_size svc node_list cache₀).ret).isSome := by
  have hnd : (chunksOf chunk_size (to_normalize cache₀ node_list)).flatten.Nodup := by
    rw [chunksOf_flatten hcs]
    exact List.nodup_dedup _
  refine ⟨?_, ?_, normalizeCore_ret_isSome chunk_size svc node_list cache₀ hcs hwf⟩
  · intro i ci hci hfail k hk
    exact processChunks_final_of_chunk_failed _ hci hfail hk hnd hwf
  · intro i ci rvs hci hs k hk
    exact processChunks_final_of_chunk_success _ hci hs hk hnd hwf

/-- Witness for C3: a concrete run with chunk size 2 over three ids,
where the first chunk succeeds and the second chunk fails. -/
theorem chunk_sacrifice_witness :
    (0 < 2) ∧ svcWellFormed exSvc (chunksOf 2 (to_normalize [] exNodes)) ∧
    ((∀ (i : Nat) (ci : List String),
        (chunksOf 2 (to_normalize [] exNodes))[i]? = some ci →
        exSvc ci = ServiceResponse.failure → ∀ k ∈ ci,
        lookupC (normalizeCore 2 exSvc exNodes []).cached_final k = some none) ∧
    (∀ (i : Nat) (ci : List String) (rvs : List (String × Option NormRecord)),
        (chunksOf 2 (to_normalize [] exNodes))[i]? = some ci →
        exSvc ci = ServiceResponse.success rvs → ∀ k ∈ ci,
        lookupC (normalizeCore 2 exSvc exNodes []).cached_final k = List.lookup k rvs) ∧
    ((normalizeCore 2 exSvc exNodes []).ret).isSome) :=
  ⟨by decide, exSvc_wf, chunk_sacrifice 2 exSvc exNodes [] (by decide) exSvc_wf⟩

/-- C4 counterexample: the claim states that `normalize_node_data` returns
the set of identifiers still unresolved at the end of the call.  The
source instead executes `return node_list` (utils.py line 211): here a
two-node run in which "A" resolves to canonical id "B:1" and "C" stays
unresolved returns the full rewritten node list (ids "B:1" and "C"),
which differs from the still-Unresolved subset (just "C"). -/
theorem normalize_return_not_unresolved_subset :
    (((normalize_node_data
        (fun _ => ServiceResponse.success [("A", some ⟨⟨"B:1", some "bee"⟩, none, none⟩), ("C", none)])
        [⟨"g", 1, "A", "A", "", ""⟩, ⟨"g", 2, "C", "C", "", ""⟩] []).ret.getD []).map (fun n => n.id) =
      ["B:1", "C"]) ∧
    still_unresolved
        (normalize_node_data
          (fun _ => ServiceResponse.success [("A", some ⟨⟨"B:1", some "bee"⟩, none, none⟩), ("C", none)])
          [⟨"g", 1, "A", "A", "", ""⟩, ⟨"g", 2, "C", "C", "", ""⟩] []).cached_final
        [⟨"g", 1, "A", "A", "", ""⟩, ⟨"g", 2, "C", "C", "", ""⟩] = ["C"] ∧
    ¬ (((normalize_node_data
        (fun _ => ServiceResponse.success [("A", some ⟨⟨"B:1", some "bee"⟩, none, none⟩), ("C", none)])
        [⟨"g", 1, "A", "A", "", ""⟩, ⟨"g", 2, "C", "C", "", ""⟩] []).ret.getD []).map (fun n => n.id) =
      still_unresolved
        (normalize_node_data
          (fun _ => ServiceResponse.success [("A", some ⟨⟨"B:1", some "bee"⟩, none, none⟩), ("C", none)])
          [⟨"g", 1, "A", "A", "", ""⟩, ⟨"g", 2, "C", "C", "", ""⟩] []).cached_final
        [⟨"g", 1, "A", "A", "", ""⟩, ⟨"g", 2, "C", "C", "", ""⟩]) := by
  refine ⟨by decide, by decide, by decide⟩

/-- C4 as amended: `normalize_node_data` returns the rewritten node list
itself, not the unresolved identifier subset: the returned list pairs the
input positionally, fragments whose id is Unresolved in the final cache
are returned unchanged, and fragments whose id resolved carry the
record's canonical identifier. -/
theorem normalize_returns_rewritten_list (chunk_size : Nat) (svc : NormService)
    (node_list : List GraphNode) (cache₀ : NormCache) (hcs : 0 < chunk_size)
    (hwf : svcWellFormed svc (chunksOf chunk_size (to_normalize cache₀ node_list))) :
    ∃ l', (normalizeCore chunk_size svc node_list cache₀).ret = some l' ∧
      List.Forall₂ (fun a b =>
        (lookupC (normalizeCore chunk_size svc node_list cache₀).cached_final a.id = some none → b = a) ∧
        (∀ r : NormRecord,
          lookupC (normalizeCore chunk_size svc node_list cache₀).cached_final a.id = some (some r) →
          b.id = r.id.identifier)) node_list l' := by
  obtain ⟨l', hl'⟩ := Option.isSome_iff_exists.mp (normalizeCore_ret_isSome chunk_size svc node_list cache₀ hcs hwf)
  refine ⟨l', hl', ?_⟩
  have hret : (normalizeCore chunk_size svc node_list cache₀).ret =
      rewriteNodes (normalizeCore chunk_size svc node_list cache₀).cached_final node_list := rfl
  rw [hret] at hl'
  have hf := rewriteNodes_forall₂ hl'
  refine hf.imp (fun a b hab => ?_)
  exact ⟨fun hu => rewriteNode_unresolved_unchanged hu hab,
    fun r hr => rewriteNode_resolved_id hr hab⟩

/-- Witness for the amended C4: the concrete chunk-size-2 run. -/
theorem normalize_returns_rewritten_list_witness :
    (0 < 2) ∧ svcWellFormed exSvc (chunksOf 2 (to_normalize [] exNodes)) ∧
    (∃ l', (normalizeCore 2 exSvc exNodes []).ret = some l' ∧
      List.Forall₂ (fun a b =>
        (lookupC (normalizeCore 2 exSvc exNodes []).cached_final a.id = some none → b = a) ∧
        (∀ r : NormRecord,
          lookupC (normalizeCore 2 exSvc exNodes []).cached_final a.id = some (some r) →
          b.id = r.id.identifier)) exNodes l') :=
  ⟨by decide, exSvc_wf, normalize_returns_rewritten_list 2 exSvc exNodes [] (by decide) exSvc_wf⟩

/-- C5: exact pairing.  A contiguous run of exactly two fragments under
group key G, position 1 with id A and position 2 with id B, with the
relation table mapping G to the non-empty relation R and A, B non-empty,
makes the grouping loop emit exactly one edge, whose subject is A,
relation R and object B (in either output mode, with any names and any
source label). -/
theorem exact_pairing_emits_one_edge
    (G A B R P EL nm1 nm2 c1 c2 q1 q2 src mode : String)
    (hA : A ≠ "") (hB : B ≠ "") (hR : R ≠ "") :
    write_edge_loop [⟨G, P, R, EL⟩] mode src
        [⟨G, 1, A, nm1, c1, q1⟩, ⟨G, 2, B, nm2, c2, q2⟩] =
      some ⟨{md5hex (edge_text mode A R B src) ++ edge_text mode A R B src}, []⟩ := by
  simp [write_edge_loop, write_edge_aux, locRelation, pickEnds, List.takeWhile, List.dropWhile,
    hA, hB, hR, emit_edge]

/-- Witness for C5: a concrete pair of fragments. -/
theorem exact_pairing_witness :
    (("A" : String) ≠ "") ∧ (("B" : String) ≠ "") ∧ (("R" : String) ≠ "") ∧
    write_edge_loop [⟨"G", "R", "R", "R"⟩] "tsv" "SRC"
        [⟨"G", 1, "A", "A", "", ""⟩, ⟨"G", 2, "B", "B", "", ""⟩] =
      some ⟨{md5hex (edge_text "tsv" "A" "R" "B" "SRC") ++ edge_text "tsv" "A" "R" "B" "SRC"}, []⟩ :=
  ⟨by decide, by decide, by decide,
    exact_pairing_emits_one_edge "G" "A" "B" "R" "R" "R" "A" "B" "" "" "" "" "SRC" "tsv"
      (by decide) (by decide) (by decide)⟩

/-- C6 counterexample: the claim states that the rewrite step is
idempotent for every fragment list and every cache.  With the cache
mapping "A" to a record whose canonical identifier "B" is not itself a
cache key, one application rewrites the fragment id to "B" while a second
application raises KeyError on "B" (embedded as `none`), so applying the
step twice differs from applying it once. -/
theorem rewrite_not_idempotent :
    rewriteNodes [("A", some ⟨⟨"B", none⟩, none, none⟩)] [⟨"g", 1, "A", "A", "", ""⟩] =
      some [⟨"g", 1, "B", "A", "", ""⟩] ∧
    (rewriteNodes [("A", some ⟨⟨"B", none⟩, none, none⟩)] [⟨"g", 1, "A", "A", "", ""⟩]).bind
        (rewriteNodes [("A", some ⟨⟨"B", none⟩, none, none⟩)]) ≠
      rewriteNodes [("A", some ⟨⟨"B", none⟩, none, none⟩)] [⟨"g", 1, "A", "A", "", ""⟩] := by
  refine ⟨by decide, by decide⟩

/-- C6 as amended: the rewrite step is idempotent on every fragment list
for canonically closed caches - caches in which every stored record's
canonical identifier is itself mapped to Unresolved or to that same
record (which is what the normalization service's answers provide). -/
theorem rewrite_idempotent_of_canonicalClosed (c : NormCache) (l : List GraphNode)
    (hcc : canonicalClosed c = true) :
    (rewriteNodes c l).bind (rewriteNodes c) = rewriteNodes c l := by
  cases h : rewriteNodes c l with
  | none => rfl
  | some l' =>
      have := rewriteNodes_idem hcc h
      simpa using this

/-- Witness for the amended C6: a concrete canonically closed cache. -/
theorem rewrite_idempotent_of_canonicalClosed_witness :
    (canonicalClosed [("A", some ⟨⟨"B", none⟩, none, none⟩), ("B", some ⟨⟨"B", none⟩, none, none⟩)] = true) ∧
    ((rewriteNodes [("A", some ⟨⟨"B", none⟩, none, none⟩), ("B", some ⟨⟨"B", none⟩, none, none⟩)]
        [⟨"g", 1, "A", "A", "", ""⟩]).bind
      (rewriteNodes [("A", some ⟨⟨"B", none⟩, none, none⟩), ("B", some ⟨⟨"B", none⟩, none, none⟩)]) =
      rewriteNodes [("A", some ⟨⟨"B", none⟩, none, none⟩), ("B", some ⟨⟨"B", none⟩, none, none⟩)]
        [⟨"g", 1, "A", "A", "", ""⟩]) :=
  ⟨by decide, rewrite_idempotent_of_canonicalClosed _ _ (by decide)⟩

/-- C7: for any fragment list whose identifiers are all present in the
cache (Resolved or Unresolved), the rewrite step raises no exception (it
returns a list), and every fragment whose identifier is Unresolved is
returned entirely unchanged (in particular its original id and name). -/
theorem rewrite_unresolved_unchanged_never_raises (c : NormCache) (l : List GraphNode)
    (h : ∀ n ∈ l, (lookupC c n.id).isSome) :
    ∃ l', rewriteNodes c l = some l' ∧
      List.Forall₂ (fun a b => lookupC c a.id = some none → b = a) l l' := by
  obtain ⟨l', hl'⟩ := Option.isSome_iff_exists.mp (rewriteNodes_isSome h)
  refine ⟨l', hl', ?_⟩
  exact (rewriteNodes_forall₂ hl').imp (fun a b hab hu => rewriteNode_unresolved_unchanged hu hab)

/-- Witness for C7: one Unresolved and one Resolved fragment. -/
theorem rewrite_unresolved_unchanged_never_raises_witness :
    (∀ n ∈ ([⟨"g", 1, "A", "A", "", ""⟩, ⟨"g", 2, "D", "D", "", ""⟩] : List GraphNode),
      (lookupC [("A", none), ("D", some ⟨⟨"D:1", none⟩, none, none⟩)] n.id).isSome) ∧
    (∃ l', rewriteNodes [("A", none), ("D", some ⟨⟨"D:1", none⟩, none, none⟩)]
        [⟨"g", 1, "A", "A", "", ""⟩, ⟨"g", 2, "D", "D", "", ""⟩] = some l' ∧
      List.Forall₂ (fun a b => lookupC [("A", none), ("D", some ⟨⟨"D:1", none⟩, none, none⟩)] a.id = some none → b = a)
        [⟨"g", 1, "A", "A", "", ""⟩, ⟨"g", 2, "D", "D", "", ""⟩] l') :=
  ⟨by decide, rewrite_unresolved_unchanged_never_raises _ _ (by decide)⟩

/-- C8: emission into `final_edge_set` is deduplicating and
order-independent, and the content hash of a fixed edge string is a fixed
value.  Emitting the same edge text twice, anywhere in the emission
sequence, yields the same set as emitting it once; swapping two adjacent
emissions yields the same set; and the final set holds exactly one entry
whose value is the digest-prefixed edge text. -/
theorem dedup_idempotent_order_independent (acc : Finset String) (e x : String)
    (l₁ l₂ l₃ : List String) :
    emit_all acc (l₁ ++ e :: (l₂ ++ e :: l₃)) = emit_all acc (l₁ ++ e :: (l₂ ++ l₃)) ∧
    emit_all acc (l₁ ++ x :: e :: l₂) = emit_all acc (l₁ ++ e :: x :: l₂) ∧
    ((emit_all acc (l₁ ++ e :: l₂)).filter (fun y => y = md5hex e ++ e)).card = 1 := by
  refine ⟨?_, ?_, ?_⟩
  · have hmem : md5hex e ++ e ∈ emit_all (emit_edge (emit_all acc l₁) e) l₂ :=
      mem_emit_all _ (Finset.mem_insert_self _ _)
    calc emit_all acc (l₁ ++ e :: (l₂ ++ e :: l₃))
        = emit_all (emit_all acc l₁) (e :: (l₂ ++ e :: l₃)) := emit_all_append acc l₁ _
      _ = emit_all (emit_edge (emit_all acc l₁) e) (l₂ ++ e :: l₃) := rfl
      _ = emit_all (emit_all (emit_edge (emit_all acc l₁) e) l₂) (e :: l₃) := emit_all_append _ l₂ _
      _ = emit_all (emit_edge (emit_all (emit_edge (emit_all acc l₁) e) l₂) e) l₃ := rfl
      _ = emit_all (emit_all (emit_edge (emit_all acc l₁) e) l₂) l₃ := by rw [emit_edge_absorb hmem]
      _ = emit_all (emit_edge (emit_all acc l₁) e) (l₂ ++ l₃) := (emit_all_append _ l₂ l₃).symm
      _ = emit_all (emit_all acc l₁) (e :: (l₂ ++ l₃)) := rfl
      _ = emit_all acc (l₁ ++ e :: (l₂ ++ l₃)) := (emit_all_append acc l₁ _).symm
  · rw [emit_all_append, emit_all_append]
    have hswap : ∀ (S : Finset String), emit_all S (x :: e :: l₂) = emit_all S (e :: x :: l₂) := by
      intro S
      have h1 : emit_all S (x :: e :: l₂) = emit_all (emit_edge (emit_edge S x) e) l₂ := rfl
      have h2 : emit_all S (e :: x :: l₂) = emit_all (emit_edge (emit_edge S e) x) l₂ := rfl
      rw [h1, h2]
      have hc : emit_edge (emit_edge S x) e = emit_edge (emit_edge S e) x := by
        simp [emit_edge, Finset.Insert.comm]
      rw [hc]
    exact hswap _
  · have hmem : md5hex e ++ e ∈ emit_all acc (l₁ ++ e :: l₂) := by
      rw [emit_all_append]
      exact entry_mem_emit_all _ e l₂
    rw [Finset.filter_eq', if_pos hmem, Finset.card_singleton]

/-- C9 counterexample: the claim states that in tsv mode every emitted
edge row leaves the id column empty.  The emitted line is the md5 hex
digest concatenated in front of the tab-prefixed edge text (loadUG.py
line 368), so the first tab-separated field of the row is the 32-character
digest, not the empty string. -/
theorem tsv_edge_row_id_column_not_empty :
    write_edge_data [⟨"G", 1, "A", "A", "", ""⟩, ⟨"G", 2, "B", "B", "", ""⟩]
        [⟨"G", "R", "R", "R"⟩] "tsv" "SRC" =
      some ⟨{md5hex (edge_text "tsv" "A" "R" "B" "SRC") ++ edge_text "tsv" "A" "R" "B" "SRC"}, []⟩ ∧
    tsvFirstField (md5hex (edge_text "tsv" "A" "R" "B" "SRC") ++ edge_text "tsv" "A" "R" "B" "SRC") ≠ "" ∧
    tsvFirstField (md5hex (edge_text "tsv" "A" "R" "B" "SRC") ++ edge_text "tsv" "A" "R" "B" "SRC") =
      md5hex (edge_text "tsv" "A" "R" "B" "SRC") := by
  refine ⟨by decide, by decide, by decide⟩

/-- C9 as amended: in tsv mode the header declares the six columns, and
every emitted edge row carries in its first (id) column not an empty
field but the content hash of the edge text: each emitted entry is the
digest followed directly by the tab-prefixed columns, so the first
tab-separated field equals the (never empty) digest. -/
theorem tsv_edge_row_first_field_is_digest (s r o src : String) (acc : Finset String) :
    emit_edge acc (edge_text "tsv" s r o src) =
      insert (md5hex (edge_text "tsv" s r o src) ++ edge_text "tsv" s r o src) acc ∧
    tsvFirstField (md5hex (edge_text "tsv" s r o src) ++ edge_text "tsv" s r o src) =
      md5hex (edge_text "tsv" s r o src) ∧
    md5hex (edge_text "tsv" s r o src) ≠ "" := by
  refine ⟨rfl, ?_, md5hex_ne_empty _⟩
  rw [edge_text_tsv_decompose]
  exact tsvFirstField_digest _ _

/-- C10: calls of `normalize_node_data` that omit the cache argument all
receive the same mutable default dict; its state after a call is the
`caller_final` component here.  Any identifier standing Unresolved in
that shared dict after one call is found there by every later call that
also omits the argument, so it is excluded from the ids sent to the
service; and two calls with identical node lists can issue different
service lookups depending on prior calls, exhibited by a fresh-default
run versus a run with the default left by a failed call. -/
theorem default_cache_shared_across_calls (svc₁ : NormService) (nodes₁ : List GraphNode)
    (d₀ : NormCache) (k : String)
    (h : lookupC (normalize_node_data svc₁ nodes₁ d₀).caller_final k = some none) :
    (∀ nodes₂ : List GraphNode,
      k ∉ to_normalize (normalize_node_data svc₁ nodes₁ d₀).caller_final nodes₂) ∧
    (to_normalize ([] : NormCache) [⟨"g", 1, "A", "A", "", ""⟩] ≠
      to_normalize
        (normalize_node_data (fun _ => ServiceResponse.failure)
          [⟨"g", 1, "A", "A", "", ""⟩] []).caller_final
        [⟨"g", 1, "A", "A", "", ""⟩]) := by
  constructor
  · intro nodes₂
    apply not_mem_to_normalize_of_cacheHas
    simp [cacheHas, h]
  · decide

/-- Witness for C10: a failed single-chunk call marks "A" Unresolved in
the shared default dict. -/
theorem default_cache_shared_across_calls_witness :
    (lookupC (normalize_node_data (fun _ => ServiceResponse.failure)
        [⟨"g", 1, "A", "A", "", ""⟩] []).caller_final "A" = some none) ∧
    ((∀ nodes₂ : List GraphNode,
      "A" ∉ to_normalize (normalize_node_data (fun _ => ServiceResponse.failure)
        [⟨"g", 1, "A", "A", "", ""⟩] []).caller_final nodes₂) ∧
    (to_normalize ([] : NormCache) [⟨"g", 1, "A", "A", "", ""⟩] ≠
      to_normalize
        (normalize_node_data (fun _ => ServiceResponse.failure)
          [⟨"g", 1, "A", "A", "", ""⟩] []).caller_final
        [⟨"g", 1, "A", "A", "", ""⟩])) :=
  ⟨by decide, default_cache_shared_across_calls _ _ _ _ (by decide)⟩
